import Mathlib

/-!
Verification development for the pwgen passphrase generator and entropy
analyzer.  Go source files are shallowly embedded: Go strings that the
entropy analyzer indexes byte-by-byte are modelled as `List Nat` (byte
values), Go `int` as `Int` (or `Nat` where the source guarantees
non-negativity), Go `float64` quantities that only ever hold exactly
representable values (the pattern penalties, all multiples of 0.5) as `ℚ`,
and `float64` quantities derived from `math.Log2` as `ℝ`.
-/

namespace Pwgen

/-- Byte list of an ASCII string literal (every character below 0x80, so the
UTF-8 bytes are exactly the code points). -/
def str2bytes (s : String) : List Nat := s.toList.map Char.toNat

/-! ## entropy.go: constants and data model -/

/-- `CharsetInfo` from entropy.go: a named character category with the size
used for brute-force estimates and its member characters. -/
structure CharsetInfo where
  name : String
  size : Nat
  chars : String
deriving DecidableEq, Repr

/-- `DigitCharset` from entropy.go. -/
def DigitCharset : CharsetInfo := ⟨"digits", 10, "0123456789"⟩

/-- `LowerCharset` from entropy.go. -/
def LowerCharset : CharsetInfo := ⟨"lowercase", 26, "abcdefghijklmnopqrstuvwxyz"⟩

/-- `UpperCharset` from entropy.go. -/
def UpperCharset : CharsetInfo := ⟨"uppercase", 26, "ABCDEFGHIJKLMNOPQRSTUVWXYZ"⟩

/-- `SymbolCharset` from entropy.go: declared size `symbolCharsetSize = 32`,
with the literal member string from the source. -/
def SymbolCharset : CharsetInfo := ⟨"symbols", 32, "!@#$%^&*()_+-=[]\x7b\x7d|;:,.<>?"⟩

/-- `SpaceCharset` from entropy.go. -/
def SpaceCharset : CharsetInfo := ⟨"space", 1, " "⟩

/-- `PatternMatch` from entropy.go.  `Penalty` is a Go `float64` but only ever
holds multiples of 0.5, so `ℚ` models it exactly. -/
structure PatternMatch where
  type' : String
  description : List Nat
  position : Nat
  length : Nat
  penalty : ℚ
deriving DecidableEq, Repr

/-! ## entropy.go: sequential pattern detector -/

/-- Inner while loop of `getSequenceLength`: starting from `len` (≥ 2),
keep extending while `str[pos+length] == str[pos+length-1]+1` (Go byte
arithmetic, hence mod 256).  Out-of-range reads cannot occur in the source
(the loop guard bounds them); `getD _ 0` mirrors the in-bounds access. -/
def seqExtend (s : List Nat) (pos : Nat) (len : Nat) : Nat :=
  if h : pos + len < s.length then
    if s.getD (pos + len) 0 = (s.getD (pos + len - 1) 0 + 1) % 256 then
      seqExtend s pos (len + 1)
    else len
  else len
termination_by s.length - (pos + len)
decreasing_by simp_wf; omega

/-- `getSequenceLength` from entropy.go: returns 0 when fewer than
`minSequenceLength = 3` characters remain, otherwise the extension of an
initial length of `minSequenceLength - 1 = 2`.  Note the source never
compares `str[pos+1]` with `str[pos]+1`. -/
def getSequenceLength (s : List Nat) (pos : Nat) : Nat :=
  if s.length ≤ pos + 2 then 0 else seqExtend s pos 2

/-- Scan loop of `findSequentialPatterns`, from index `i`: the Go loop runs
while `i < len(str)-minSequenceLength+1` and, after emitting a match of
length `seqLen`, resumes at `i + seqLen` (`i += seqLen - 1` plus the `i++`). -/
def findSequentialPatternsFrom (s : List Nat) (i : Nat) : List PatternMatch :=
  if h : i + 2 < s.length then
    if hm : 3 ≤ getSequenceLength s i then
      { type' := "sequential"
        description :=
          str2bytes "Sequential pattern: " ++ (s.drop i).take (getSequenceLength s i)
        position := i
        length := getSequenceLength s i
        penalty := (getSequenceLength s i : ℚ) * 2 } ::
          findSequentialPatternsFrom s (i + getSequenceLength s i)
    else
      findSequentialPatternsFrom s (i + 1)
  else []
termination_by s.length - i
decreasing_by all_goals simp_wf; omega

/-- `findSequentialPatterns` from entropy.go. -/
def findSequentialPatterns (s : List Nat) : List PatternMatch :=
  findSequentialPatternsFrom s 0

/-! ## entropy.go: repetition pattern detector -/

/-- Inner while loop of `findRepetitionPatterns`: advance `j` while
`j < len(str) && str[j] == str[i]`. -/
def repExtend (s : List Nat) (i j : Nat) : Nat :=
  if h : j < s.length then
    if s.getD j 0 = s.getD i 0 then repExtend s i (j + 1) else j
  else j
termination_by s.length - j
decreasing_by simp_wf; omega

theorem le_repExtend (s : List Nat) (i j : Nat) : j ≤ repExtend s i j := by
  unfold repExtend
  split
  · split
    · exact le_trans (Nat.le_succ j) (le_repExtend s i (j + 1))
    · exact le_refl j
  · exact le_refl j
termination_by s.length - j
decreasing_by simp_wf; omega

/-- Scan loop of `findRepetitionPatterns` from index `i`: runs while
`i < len(str)-minRepetitionLength+1`; on finding `str[i] == str[i+1] ==
str[i+2]` it extends to `j`, emits a match of length `j - i` with penalty
`(length-1) * 3.0`, and resumes at `j`. -/
def findRepetitionPatternsFrom (s : List Nat) (i : Nat) : List PatternMatch :=
  if h : i + 2 < s.length then
    if s.getD i 0 = s.getD (i + 1) 0 ∧ s.getD (i + 1) 0 = s.getD (i + 2) 0 then
      let j := repExtend s i (i + 2)
      { type' := "repetition"
        description := str2bytes "Repeated character: " ++ (s.drop i).take (j - i)
        position := i
        length := j - i
        penalty := ((j - i - 1 : Nat) : ℚ) * 3 } :: findRepetitionPatternsFrom s j
    else
      findRepetitionPatternsFrom s (i + 1)
  else []
termination_by s.length - i
decreasing_by
  all_goals simp_wf
  · have := le_repExtend s i (i + 2); omega
  · omega

/-- `findRepetitionPatterns` from entropy.go. -/
def findRepetitionPatterns (s : List Nat) : List PatternMatch :=
  findRepetitionPatternsFrom s 0

/-! ## entropy.go: dictionary word detector -/

/-- The fixed `commonWords` list from `findDictionaryPatterns`. -/
def commonWords : List (List Nat) :=
  [str2bytes "password", str2bytes "admin", str2bytes "user", str2bytes "login",
   str2bytes "welcome", str2bytes "hello", str2bytes "world", str2bytes "test",
   str2bytes "demo", str2bytes "sample", str2bytes "the", str2bytes "and",
   str2bytes "you", str2bytes "that", str2bytes "was", str2bytes "for",
   str2bytes "are"]

/-- `strings.ToLower`, restricted to ASCII input bytes (the development only
analyzes ASCII strings; for ASCII, Go lowers each byte independently). -/
def goToLowerByte (c : Nat) : Nat := if 65 ≤ c ∧ c ≤ 90 then c + 32 else c

/-- Byte-wise `strings.ToLower` on an ASCII byte string. -/
def goToLower (s : List Nat) : List Nat := s.map goToLowerByte

/-- Does `w` occur in `s` starting at byte offset `i`? -/
def occursAt (s w : List Nat) (i : Nat) : Bool := w.isPrefixOf (s.drop i)

/-- `strings.Index`: byte offset of the first occurrence of `w` in `s`,
`none` when absent (Go returns -1). -/
def goIndex (s w : List Nat) : Option Nat :=
  if w.isPrefixOf s then some 0
  else
    match s with
    | [] => none
    | _ :: t => (goIndex t w).map (· + 1)

/-- `findDictionaryPatterns` from entropy.go: for each word of `commonWords`
in order, `strings.Index` on the lowercased input; if found, emit ONE match
at that (first) index with penalty `len(word) * 1.5`. -/
def findDictionaryPatterns (s : List Nat) : List PatternMatch :=
  let lower := goToLower s
  commonWords.filterMap fun w =>
    (goIndex lower w).map fun idx =>
      { type' := "dictionary"
        description := str2bytes "Common word: " ++ w
        position := idx
        length := w.length
        penalty := (w.length : ℚ) * (3 / 2) }

/-! ## entropy.go: date pattern detector -/

/-- An ASCII word character in the sense of the `regexp` metacharacters
`\w` and `\b`: `[0-9A-Za-z_]`. -/
def isWordByte (c : Nat) : Bool :=
  decide ((48 ≤ c ∧ c ≤ 57) ∨ (65 ≤ c ∧ c ≤ 90) ∨ (97 ≤ c ∧ c ≤ 122) ∨ c = 95)

/-- An ASCII digit byte. -/
def isDigitByte (c : Nat) : Bool := decide (48 ≤ c ∧ c ≤ 57)

/-- A match of the anchored pattern `\b(19|20)\d{2}\b` at byte offset `i`:
four digits starting `19` or `20`, with an ASCII word boundary on each side
(start of string or a non-word byte before; end of string or a non-word byte
after). -/
def yearCandidateAt (s : List Nat) (i : Nat) : Prop :=
  i + 4 ≤ s.length ∧
  ((s.getD i 0 = 49 ∧ s.getD (i + 1) 0 = 57) ∨
   (s.getD i 0 = 50 ∧ s.getD (i + 1) 0 = 48)) ∧
  isDigitByte (s.getD (i + 2) 0) = true ∧ isDigitByte (s.getD (i + 3) 0) = true ∧
  (i = 0 ∨ isWordByte (s.getD (i - 1) 0) = false) ∧
  (i + 4 = s.length ∨ isWordByte (s.getD (i + 4) 0) = false)

instance (s : List Nat) (i : Nat) : Decidable (yearCandidateAt s i) := by
  unfold yearCandidateAt; infer_instance

/-- `regexp.FindAllStringIndex` scan for `\b(19|20)\d{2}\b` from offset `i`:
leftmost match first, then continue after the end of the match.  (Every
match of this pattern has length 4.) -/
def findDateFrom (s : List Nat) (i : Nat) : List PatternMatch :=
  if h : i + 4 ≤ s.length then
    if yearCandidateAt s i then
      { type' := "date"
        description := str2bytes "Year pattern: " ++ (s.drop i).take 4
        position := i
        length := 4
        penalty := 8 } :: findDateFrom s (i + 4)
    else
      findDateFrom s (i + 1)
  else []
termination_by s.length - i
decreasing_by all_goals simp_wf; omega

/-- `findDatePatterns` from entropy.go. -/
def findDatePatterns (s : List Nat) : List PatternMatch :=
  findDateFrom s 0

/-- `detectPatterns` from entropy.go: the four detectors run independently
and their matches are concatenated. -/
def detectPatterns (s : List Nat) : List PatternMatch :=
  findSequentialPatterns s ++ findRepetitionPatterns s ++
    findDictionaryPatterns s ++ findDatePatterns s

/-! ## entropy.go: charset detection

The Go source classifies runes with `unicode.IsDigit` / `IsLower` /
`IsUpper` / `IsSpace` / `IsPunct || IsSymbol`; restricted to ASCII these are
the predicates below, which are pairwise disjoint, so the first-match
`switch` is equivalent to testing each class independently. -/

/-- ASCII `unicode.IsLower`. -/
def isLowerByte (c : Nat) : Bool := decide (97 ≤ c ∧ c ≤ 122)

/-- ASCII `unicode.IsUpper`. -/
def isUpperByte (c : Nat) : Bool := decide (65 ≤ c ∧ c ≤ 90)

/-- ASCII `unicode.IsSpace`: space, tab, newline, vertical tab, form feed,
carriage return. -/
def isSpaceByte (c : Nat) : Bool :=
  decide (c = 32 ∨ c = 9 ∨ c = 10 ∨ c = 11 ∨ c = 12 ∨ c = 13)

/-- ASCII `unicode.IsPunct || unicode.IsSymbol`: the printable non-space
non-alphanumeric characters. -/
def isPunctOrSymbolByte (c : Nat) : Bool :=
  decide ((33 ≤ c ∧ c ≤ 47) ∨ (58 ≤ c ∧ c ≤ 64) ∨ (91 ≤ c ∧ c ≤ 96) ∨
    (123 ≤ c ∧ c ≤ 126))

/-- `detectCharsets` from entropy.go: append, in source order, each category
present at least once. -/
def detectCharsets (s : List Nat) : List CharsetInfo :=
  (if s.any isDigitByte then [DigitCharset] else []) ++
  (if s.any isLowerByte then [LowerCharset] else []) ++
  (if s.any isUpperByte then [UpperCharset] else []) ++
  (if s.any isPunctOrSymbolByte then [SymbolCharset] else []) ++
  (if s.any isSpaceByte then [SpaceCharset] else [])

/-- `calculateCharsetSize` from entropy.go: sum of the category sizes. -/
def calculateCharsetSize (cs : List CharsetInfo) : Nat :=
  (cs.map CharsetInfo.size).sum

/-- `charsetNames` from entropy.go. -/
def charsetNames (cs : List CharsetInfo) : List String :=
  cs.map CharsetInfo.name

/-! ## entropy.go: word-structure heuristic -/

/-- ASCII `unicode.IsLetter`. -/
def isLetterByte (c : Nat) : Bool :=
  decide ((65 ≤ c ∧ c ≤ 90) ∨ (97 ≤ c ∧ c ≤ 122))

/-- `isWordLike` from entropy.go: length within `[2, 15]` and more than 70%
letters.  The Go source compares `float64(letterCount)/float64(len) > 0.7`;
for the denominators reachable here the exact rational comparison below
agrees with the float64 one. -/
def isWordLike (s : List Nat) : Bool :=
  if s.length < 2 ∨ 15 < s.length then false
  else decide (10 * (s.filter isLetterByte).length > 7 * s.length)

/-- When `goIndex` reports an occurrence, the word is a prefix of the
corresponding suffix. -/
theorem goIndex_some_prefix {sep : List Nat} :
    ∀ {s : List Nat} {i : Nat}, goIndex s sep = some i → sep <+: s.drop i := by
  intro s
  induction s with
  | nil =>
    intro i h
    unfold goIndex at h
    split at h
    · rename_i hcond
      simp only [Option.some.injEq] at h
      subst h
      simpa using List.isPrefixOf_iff_prefix.mp hcond
    · exact absurd h (by simp)
  | cons a t ih =>
    intro i h
    unfold goIndex at h
    split at h
    · rename_i hcond
      simp only [Option.some.injEq] at h
      subst h
      simpa using List.isPrefixOf_iff_prefix.mp hcond
    · simp only [Option.map_eq_some'] at h
      obtain ⟨j, hj, rfl⟩ := h
      simpa using ih hj

/-- A found occurrence of a non-empty word starts inside the string. -/
theorem goIndex_some_lt {s sep : List Nat} {i : Nat} (hsep : sep ≠ [])
    (h : goIndex s sep = some i) : i < s.length := by
  have hpre := goIndex_some_prefix h
  by_contra hcon
  rw [List.drop_eq_nil_of_le (by omega)] at hpre
  exact hsep (List.prefix_nil.mp hpre)

/-- `strings.Split` on a non-empty separator byte string (Go semantics:
split around each non-overlapping occurrence, found left to right).  The
source only calls this with the ASCII separators "-", "_", ".", " "; the
empty-separator case is branched away before the call. -/
def goSplit (s sep : List Nat) : List (List Nat) :=
  if hsep : sep = [] then s.map fun c => [c]
  else
    match hidx : goIndex s sep with
    | none => [s]
    | some i => s.take i :: goSplit (s.drop (i + sep.length)) sep
termination_by s.length
decreasing_by
  simp_wf
  have hlen : i < s.length := goIndex_some_lt hsep hidx
  have hslen : 1 ≤ sep.length := by
    cases sep with
    | nil => exact absurd rfl hsep
    | cons c cs => simp
  omega

/-- `hasAlternatingCase` from entropy.go: contains both an uppercase and a
lowercase letter. -/
def hasAlternatingCase (s : List Nat) : Bool :=
  s.any isUpperByte && s.any isLowerByte

/-- `looksLikeWordPattern` from entropy.go. -/
def looksLikeWordPattern (s sep : List Nat) : Bool :=
  if sep = [] then hasAlternatingCase s
  else
    let parts := goSplit s sep
    if parts.length < 2 then false
    else decide (5 * (parts.filter isWordLike).length > 3 * parts.length)

/-- `estimateConcatenatedWords` from entropy.go:
`max 1 (int(float64(len(str)) / 5.5))`, i.e. `max 1 (2*len / 11)`. -/
def estimateConcatenatedWords (s : List Nat) : Nat :=
  max 1 (2 * s.length / 11)

/-- `countWords` from entropy.go. -/
def countWords (s sep : List Nat) : Nat :=
  if sep = [] then estimateConcatenatedWords s
  else ((goSplit s sep).filter isWordLike).length

/-- The separator candidates tried by `analyzeWordStructure`, in order:
"-", "_", ".", " ", "". -/
def wordSeparators : List (List Nat) := [[45], [95], [46], [32], []]

/-- `analyzeWordStructure` from entropy.go: first separator that looks like
a word pattern wins. -/
def analyzeWordStructure (s : List Nat) : Bool × Nat :=
  match wordSeparators.find? (fun sep => looksLikeWordPattern s sep) with
  | some sep => (true, countWords s sep)
  | none => (false, 0)

/-! ## generator.go: strength / crack-time classifier and policy -/

/-- `calculateStrength` from generator.go.  Entropy is a `float64` holding a
value derived from `math.Log2`; it is modelled as a real number. -/
noncomputable def calculateStrength (entropy : ℝ) : String :=
  if entropy < 45 then "Weak"
  else if entropy < 65 then "Okay"
  else if entropy < 80 then "Strong"
  else "Excellent"

/-- `estimateCrackTime` from generator.go. -/
noncomputable def estimateCrackTime (entropy : ℝ) : String :=
  if entropy ≤ 0 then "Instant"
  else if entropy < 30 then "Seconds"
  else if entropy < 40 then "Minutes"
  else if entropy < 50 then "Hours"
  else if entropy < 60 then "Days"
  else if entropy < 70 then "Years"
  else if entropy < 80 then "Centuries"
  else "Millennia"

/-- `checkPolicy` from generator.go: a positive `minLength` bound fails a
shorter passphrase, a positive `minEntropy` bound fails lower entropy, and
everything else passes.  The entropy comparison is exact in the source up
to float representation; `ℚ` models the comparison structure. -/
def checkPolicy (passphrase : List Nat) (entropy : ℚ)
    (minLength minEntropy : Int) : Bool :=
  if minLength > 0 ∧ (passphrase.length : Int) < minLength then false
  else if minEntropy > 0 ∧ entropy < (minEntropy : ℚ) then false
  else true

/-! ## entropy.go: CalculateEntropy -/

/-- `AnalysisResult` from entropy.go. -/
structure AnalysisResult where
  passphrase : List Nat
  length : Nat
  entropy : ℝ
  charsetSize : Nat
  charsets : List String
  strength : String
  crackTime : String
  patterns : List PatternMatch
  wordBased : Bool
  estimatedWords : Nat

/-- `applyPatternPenalties` from entropy.go: subtract the summed penalties,
floored at 0. -/
noncomputable def applyPatternPenalties (baseEntropy : ℝ)
    (patterns : List PatternMatch) : ℝ :=
  let totalPenalty : ℚ := (patterns.map PatternMatch.penalty).sum
  if baseEntropy - (totalPenalty : ℝ) < 0 then 0
  else baseEntropy - (totalPenalty : ℝ)

/-- `CalculateEntropy` from entropy.go.  The empty string short-circuits to
a zero-valued result with strength "None"; otherwise base entropy is
`length * log2(charsetSize)` adjusted by the pattern penalties. -/
noncomputable def CalculateEntropy (passphrase : List Nat) : AnalysisResult :=
  if passphrase = [] then
    { passphrase := []
      length := 0
      entropy := 0
      charsetSize := 0
      charsets := []
      strength := "None"
      crackTime := "Instant"
      patterns := []
      wordBased := false
      estimatedWords := 0 }
  else
    let charsets := detectCharsets passphrase
    let charsetSize := calculateCharsetSize charsets
    let baseEntropy : ℝ := (passphrase.length : ℝ) * Real.logb 2 (charsetSize : ℝ)
    let patterns := detectPatterns passphrase
    let adjustedEntropy := applyPatternPenalties baseEntropy patterns
    let ws := analyzeWordStructure passphrase
    { passphrase := passphrase
      length := passphrase.length
      entropy := adjustedEntropy
      charsetSize := charsetSize
      charsets := charsetNames charsets
      strength := calculateStrength adjustedEntropy
      crackTime := estimateCrackTime adjustedEntropy
      patterns := patterns
      wordBased := ws.1
      estimatedWords := ws.2 }

/-! ## tokens.go: case styles and tokens -/

/-- `CaseStyle` from tokens.go. -/
inductive CaseStyle where
  | lower
  | upper
  | title
  | mixed
deriving DecidableEq, Repr

/-- `strings.TrimSpace` on the character list view. -/
def trimChars (l : List Char) : List Char :=
  ((l.dropWhile Char.isWhitespace).reverse.dropWhile Char.isWhitespace).reverse

/-- `ParseCaseStyle` from tokens.go: trim, lowercase, then match the four
recognized names.  (Implemented on the character list view so that
concrete parses reduce definitionally.) -/
def ParseCaseStyle (s : String) : Except String CaseStyle :=
  let n := (trimChars s.toList).map Char.toLower
  if n = "lower".toList then .ok .lower
  else if n = "upper".toList then .ok .upper
  else if n = "title".toList then .ok .title
  else if n = "mixed".toList then .ok .mixed
  else .error ("unknown case style: " ++ s)

/-- `DefaultSymbolCharset` from tokens.go (the literal from the source). -/
def DefaultSymbolCharset : String := "!@#$%^&*()_+-=[]\x7b\x7d|;:,.<>?"

/-- `SymbolToken.EntropyBits` from tokens.go: `count * log2(len(charset))`
with the default charset substituted for an empty one, and 0 for
non-positive counts or an empty effective charset. -/
noncomputable def SymbolTokenEntropyBits (count : Int) (charset : String) : ℝ :=
  if count ≤ 0 then 0
  else
    let cs := if charset = "" then DefaultSymbolCharset else charset
    if cs.length = 0 then 0
    else (count : ℝ) * Real.logb 2 (cs.length : ℝ)

/-- The closed token variant set (design note §9 of the spec: Go models this
as an interface with exactly these four implementations).  The `WordToken`
dictionary capability is configuration the claims never consult and is not
carried. -/
inductive Token where
  | word (casing : CaseStyle)
  | digit (count : Int)
  | symbol (count : Int) (charset : String)
  | separator (value : String)
deriving DecidableEq, Repr

/-- Is this token a `SeparatorToken`? -/
def Token.isSeparator : Token → Bool
  | .separator _ => true
  | _ => false

/-! ## tokens.go: mixed casing

`applyMixedCase` works on the `[]rune` view of the word.  Runes are
modelled as code points (`Nat`); `goRuneIsLetter` / `goRuneToUpper` /
`goRuneToLower` are Go's `unicode.IsLetter` / `ToUpper` / `ToLower`
restricted to the code points used in this development: ASCII plus U+00DF
(the lowercase letter sharp s, whose simple upper- and lowercase mappings
in the Unicode tables Go uses are both itself). -/

/-- `unicode.IsLetter` on ASCII and U+00DF. -/
def goRuneIsLetter (c : Nat) : Bool :=
  decide ((65 ≤ c ∧ c ≤ 90) ∨ (97 ≤ c ∧ c ≤ 122) ∨ c = 223)

/-- `unicode.ToUpper` on ASCII and U+00DF (U+00DF has no simple uppercase
mapping, so it maps to itself). -/
def goRuneToUpper (c : Nat) : Nat := if 97 ≤ c ∧ c ≤ 122 then c - 32 else c

/-- `unicode.ToLower` on ASCII and U+00DF. -/
def goRuneToLower (c : Nat) : Nat := if 65 ≤ c ∧ c ≤ 90 then c + 32 else c

/-- First pass of `applyMixedCase`: one unbiased coin flip per letter, drawn
from the random tape `tape` at increasing indices (non-letters consume no
randomness); returns the recased runes and how many flips chose
uppercase (the `changes` counter). -/
def mixedFirstPass : List Nat → (Nat → Bool) → Nat → List Nat × Nat
  | [], _, _ => ([], 0)
  | c :: rest, tape, k =>
    if goRuneIsLetter c then
      let out := mixedFirstPass rest tape (k + 1)
      if tape k then (goRuneToUpper c :: out.1, out.2 + 1)
      else (goRuneToLower c :: out.1, out.2)
    else
      let out := mixedFirstPass rest tape k
      (c :: out.1, out.2)

/-- Fallback of `applyMixedCase` when no flip chose uppercase: uppercase the
first letter. -/
def forceFirstLetterUpper : List Nat → List Nat
  | [] => []
  | c :: rest =>
    if goRuneIsLetter c then goRuneToUpper c :: rest
    else c :: forceFirstLetterUpper rest

/-- `applyMixedCase` from tokens.go, with the secure random source as an
explicit boolean tape. -/
def applyMixedCase (word : List Nat) (tape : Nat → Bool) : List Nat :=
  let out := mixedFirstPass word tape 0
  if out.2 = 0 then forceFirstLetterUpper out.1 else out.1

/-- `strings.ToLower` on the rune view (the all-lowercase form of a word). -/
def goStringToLower (word : List Nat) : List Nat := word.map goRuneToLower

/-! ## pattern.go (part_003): Pattern and PatternBuilder -/

/-- `Pattern` from pattern.go: an ordered token list. -/
structure Pattern where
  tokens : List Token
deriving DecidableEq, Repr

/-- `PatternBuilder` from pattern.go; the dictionary capability is not
carried (no claim consults it). -/
structure PatternBuilder where
  defaultSep : String
deriving DecidableEq, Repr

/-- The separator resolution of `BuildFromOptions` (lines 89-103 of
pattern.go): start from the builder default, let a non-empty explicit
separator override it, then let the kebab / snake / camel switch override
that. -/
def resolveSeparator (defaultSep sep : String) (kebab snake camel : Bool) : String :=
  let actualSep := if sep ≠ "" then sep else defaultSep
  if kebab then "-" else if snake then "_" else if camel then "" else actualSep

/-- The word-emission loop of `BuildFromOptions`: for each word index `i`,
a separator first iff `i > 0` and the separator is non-empty. -/
def buildWordTokens (caseStyle : CaseStyle) (actualSep : String) (n : Nat) :
    List Token :=
  (List.range n).foldl
    (fun acc i =>
      (if 0 < i ∧ actualSep ≠ "" then acc ++ [Token.separator actualSep] else acc) ++
        [Token.word caseStyle])
    []

/-- The digit / symbol emission loops of `BuildFromOptions`: for each unit,
a separator first iff any token already exists and the separator is
non-empty, then the unit token. -/
def appendUnits (actualSep : String) (unit : Token) (n : Nat)
    (acc : List Token) : List Token :=
  (List.range n).foldl
    (fun acc _ =>
      (if acc ≠ [] ∧ actualSep ≠ "" then acc ++ [Token.separator actualSep] else acc) ++
        [unit])
    acc

/-- `BuildFromOptions` from pattern.go.  Counts are Go `int`s; `for i :=
range n` iterates `max n 0` times. -/
def BuildFromOptions (pb : PatternBuilder) (words digits symbols : Int)
    (casing sep : String) (kebab snake camel : Bool) : Except String Pattern :=
  if words = 0 ∧ digits = 0 ∧ symbols = 0 then
    .error "must specify at least one type of token"
  else
    match ParseCaseStyle casing with
    | .error e => .error e
    | .ok caseStyle =>
      let actualSep := resolveSeparator pb.defaultSep sep kebab snake camel
      let t1 := buildWordTokens caseStyle actualSep words.toNat
      let t2 := appendUnits actualSep (Token.digit 1) digits.toNat t1
      let t3 := appendUnits actualSep (Token.symbol 1 DefaultSymbolCharset) symbols.toNat t2
      .ok ⟨t3⟩

/-! ## pattern.go (part_003): the DSL -/

/-- Accumulator pass of `strings.Fields`: `acc` holds the reversed
characters of the current (possibly empty) field. -/
def fieldsAux : List Char → List Char → List (List Char)
  | [], acc => if acc = [] then [] else [acc.reverse]
  | c :: t, acc =>
    if c.isWhitespace then
      if acc = [] then fieldsAux t [] else acc.reverse :: fieldsAux t []
    else fieldsAux t (c :: acc)

/-- `strings.Fields`: whitespace-separated non-empty substrings, on the
character list view. -/
def fieldsChars (l : List Char) : List (List Char) := fieldsAux l []

/-- `strings.Split` on a single-character separator (the DSL only splits on
`:`), on the character list view. -/
def splitOnChar : List Char → Char → List (List Char)
  | [], _ => [[]]
  | c :: t, sep =>
    if c = sep then [] :: splitOnChar t sep
    else
      match splitOnChar t sep with
      | [] => [[c]]
      | h :: r => (c :: h) :: r

/-- `strconv.Atoi` on a non-empty decimal digit string (the only shape the
DSL grammar feeds it; overflow is not modelled). -/
def charsToNat (l : List Char) : Nat :=
  l.foldl (fun acc c => 10 * acc + (c.toNat - 48)) 0

/-- The optional-count suffix of the digit / symbol element regexes:
matches `\x7b(\d+)\x7d` exactly and returns the captured digits. -/
def braceCapture (l : List Char) : Option (List Char) :=
  match l with
  | [] => none
  | c :: t =>
    if c = '\x7b' then
      match t.reverse with
      | [] => none
      | d :: innerRev =>
        let inner := innerRev.reverse
        if d = '\x7d' ∧ inner ≠ [] ∧ inner.all Char.isDigit = true then some inner
        else none
    else none

/-- `parseWordToken` from pattern.go: `W` alone is a lower-cased word;
`W:<casing>` uses the named casing (`parts[0]` is never inspected). -/
def parseWordToken (element : List Char) : Except String Token :=
  let parts := splitOnChar element ':'
  if parts.length = 1 then .ok (Token.word CaseStyle.lower)
  else if parts.length ≠ 2 then
    .error ("invalid word token format: " ++ String.mk element)
  else
    match ParseCaseStyle (String.mk (parts.getD 1 [])) with
    | .ok caseStyle => .ok (Token.word caseStyle)
    | .error _ => .error ("invalid casing in word token " ++ String.mk element)

/-- `parseDigitToken` from pattern.go: the element must match
`^D+(?:\x7b(\d+)\x7d)?$`; the count is the number of `D` characters unless
the brace capture overrides it, and must be positive. -/
def parseDigitToken (element : List Char) : Except String Token :=
  let l := element
  let ds := l.takeWhile fun c => decide (c = 'D')
  let rest := l.drop ds.length
  let regexMatch : Option (Option (List Char)) :=
    if ds.length = 0 then none
    else if rest = [] then some none
    else
      match braceCapture rest with
      | some inner => some (some inner)
      | none => none
  match regexMatch with
  | none => .error ("invalid digit token format: " ++ String.mk element)
  | some cap =>
    let fromCount := (l.filter fun c => decide (c = 'D')).length
    let count := match cap with
      | some inner => charsToNat inner
      | none => fromCount
    if count = 0 then .error ("digit count must be positive in " ++ String.mk element)
    else .ok (Token.digit count)

/-- `parseSymbolToken` from pattern.go: `S` alone is one symbol; otherwise
the element must match `^S\x7b(\d+)\x7d$` with a positive count. -/
def parseSymbolToken (element : List Char) : Except String Token :=
  if element = ['S'] then .ok (Token.symbol 1 DefaultSymbolCharset)
  else
    match element with
    | c :: rest =>
      if c = 'S' then
        match braceCapture rest with
        | some inner =>
          let count := charsToNat inner
          if count = 0 then
            .error ("symbol count must be positive in " ++ String.mk element)
          else .ok (Token.symbol count DefaultSymbolCharset)
        | none => .error ("invalid symbol token format: " ++ String.mk element)
      else .error ("invalid symbol token format: " ++ String.mk element)
    | [] => .error ("invalid symbol token format: " ++ String.mk element)

/-- `parseElement` from pattern.go: trim, check `SEP`, then dispatch on the
leading character (`strings.HasPrefix` with the one-character prefixes
`W`, `D`, `S`). -/
def parseElement (pb : PatternBuilder) (element : List Char) : Except String Token :=
  let element := trimChars element
  if element = "SEP".toList then .ok (Token.separator pb.defaultSep)
  else if element.head? = some 'W' then parseWordToken element
  else if element.head? = some 'D' then parseDigitToken element
  else if element.head? = some 'S' then parseSymbolToken element
  else .error ("unknown pattern element: " ++ String.mk element)

/-- `parseDSL` from pattern.go: parse each whitespace-separated element in
order, aborting at the first failure. -/
def parseDSL (pb : PatternBuilder) (dsl : String) : Except String (List Token) :=
  (fieldsChars dsl.toList).mapM (parseElement pb)

/-- `BuildFromDSL` from pattern.go. -/
def BuildFromDSL (pb : PatternBuilder) (dsl : String) : Except String Pattern :=
  if trimChars dsl.toList = [] then .error "pattern DSL cannot be empty"
  else
    match parseDSL pb dsl with
    | .error e => .error ("parsing DSL pattern: " ++ e)
    | .ok tokens => .ok ⟨tokens⟩

/-! ## Specification-side predicates for the sequential detector -/

/-- The property the specification ascribes to a reported sequential run:
every character of the span after the first equals its predecessor plus
one (byte arithmetic). -/
def seqChainFull (s : List Nat) (p L : Nat) : Prop :=
  ∀ k < p + L, p + 1 ≤ k → s.getD k 0 = (s.getD (k - 1) 0 + 1) % 256

/-- The property the code actually checks: every character of the span
from the third onward equals its predecessor plus one — the pair at
`(p, p+1)` is never compared. -/
def seqChainTail (s : List Nat) (p L : Nat) : Prop :=
  ∀ k < p + L, p + 2 ≤ k → s.getD k 0 = (s.getD (k - 1) 0 + 1) % 256

/-- Maximality of a reported run: it ends at the string end or at a byte
that does not continue the chain. -/
def seqMaximal (s : List Nat) (p L : Nat) : Prop :=
  p + L = s.length ∨ s.getD (p + L) 0 ≠ (s.getD (p + L - 1) 0 + 1) % 256

instance (s : List Nat) (p L : Nat) : Decidable (seqChainFull s p L) := by
  unfold seqChainFull; infer_instance

instance (s : List Nat) (p L : Nat) : Decidable (seqChainTail s p L) := by
  unfold seqChainTail; infer_instance

instance (s : List Nat) (p L : Nat) : Decidable (seqMaximal s p L) := by
  unfold seqMaximal; infer_instance

/-! ## Claims -/

/-- C1 counterexample: an explicit non-empty separator argument `+`
supplied together with `kebab = true` builds a pattern whose separator
token is `-`, not `+` — the kebab switch, not the explicit argument,
wins. -/
theorem buildFromOptions_kebab_beats_sep :
    BuildFromOptions ⟨"."⟩ 2 0 0 "lower" "+" true false false =
      .ok ⟨[Token.word .lower, Token.separator "-", Token.word .lower]⟩ ∧
    ("-" : String) ≠ "+" := ⟨rfl, by decide⟩

/-- Modelled from the spec as amended by the counterexample: the
separator-resolution precedence with the switch shortcuts on top —
kebab over snake over camel over an explicit non-empty separator over the
builder default. -/
def specResolvedSeparator (defaultSep sep : String)
    (kebab snake camel : Bool) : String :=
  if kebab then "-"
  else if snake then "_"
  else if camel then ""
  else if sep ≠ "" then sep
  else defaultSep

/-- The code's separator resolution agrees with the amended precedence. -/
theorem resolveSeparator_eq_spec (d s : String) (k sn cm : Bool) :
    resolveSeparator d s k sn cm = specResolvedSeparator d s k sn cm := by
  cases k <;> cases sn <;> cases cm <;> rfl

/-- One unrolling of the word-emission loop. -/
theorem buildWordTokens_succ (cs : CaseStyle) (r : String) (n : Nat) :
    buildWordTokens cs r (n + 1) =
      (if 0 < n ∧ r ≠ "" then buildWordTokens cs r n ++ [Token.separator r]
       else buildWordTokens cs r n) ++ [Token.word cs] := by
  unfold buildWordTokens
  rw [List.range_succ, List.foldl_append]
  rfl

/-- One unrolling of the digit / symbol emission loop. -/
theorem appendUnits_succ (r : String) (u : Token) (n : Nat) (acc : List Token) :
    appendUnits r u (n + 1) acc =
      (if appendUnits r u n acc ≠ [] ∧ r ≠ "" then
        appendUnits r u n acc ++ [Token.separator r]
       else appendUnits r u n acc) ++ [u] := by
  unfold appendUnits
  rw [List.range_succ, List.foldl_append]
  rfl

/-- Every separator the word loop emits carries the resolved separator. -/
theorem mem_buildWordTokens_sep {cs : CaseStyle} {r : String} {n : Nat}
    {v : String} (h : Token.separator v ∈ buildWordTokens cs r n) : v = r := by
  induction n with
  | zero => simp [buildWordTokens] at h
  | succ n ih =>
    rw [buildWordTokens_succ] at h
    rcases List.mem_append.mp h with h | h
    · split at h
      · rcases List.mem_append.mp h with h | h
        · exact ih h
        · simp only [List.mem_singleton, Token.separator.injEq] at h
          exact h
      · exact ih h
    · simp at h

/-- Every separator the unit loop emits carries the resolved separator,
comes from the accumulator, or is the unit itself. -/
theorem mem_appendUnits_sep {r : String} {u : Token} {n : Nat}
    {acc : List Token} {v : String}
    (h : Token.separator v ∈ appendUnits r u n acc) :
    Token.separator v ∈ acc ∨ v = r ∨ Token.separator v = u := by
  induction n with
  | zero => exact Or.inl (by simpa [appendUnits] using h)
  | succ n ih =>
    rw [appendUnits_succ] at h
    rcases List.mem_append.mp h with h | h
    · split at h
      · rcases List.mem_append.mp h with h | h
        · exact ih h
        · simp only [List.mem_singleton, Token.separator.injEq] at h
          exact Or.inr (Or.inl h)
      · exact ih h
    · simp only [List.mem_singleton] at h
      exact Or.inr (Or.inr h)

/-- C1 (amended): the separator placed between tokens by
`BuildFromOptions` is resolved with the precedence kebab over snake over
camel over the explicit non-empty separator argument over the builder
default — in particular, when a non-empty separator argument is supplied
together with kebab (or snake, or camel), the switch wins and the
explicit argument is ignored. -/
theorem buildFromOptions_separator_value (pb : PatternBuilder)
    (words digits symbols : Int) (casing sep : String)
    (kebab snake camel : Bool) (p : Pattern) (v : String)
    (hok : BuildFromOptions pb words digits symbols casing sep kebab snake camel
      = .ok p)
    (hv : Token.separator v ∈ p.tokens) :
    v = specResolvedSeparator pb.defaultSep sep kebab snake camel := by
  unfold BuildFromOptions at hok
  split at hok
  · exact absurd hok (by simp)
  · split at hok
    · exact absurd hok (by simp)
    · rename_i caseStyle hcs
      simp only [Except.ok.injEq] at hok
      subst hok
      rw [← resolveSeparator_eq_spec]
      rcases mem_appendUnits_sep hv with h2 | h2 | h2
      · rcases mem_appendUnits_sep h2 with h1 | h1 | h1
        · exact mem_buildWordTokens_sep h1
        · exact h1
        · exact absurd h1 (by simp)
      · exact h2
      · exact absurd h2 (by simp)

/-- C1 witness: with default `.`, explicit separator `+` and kebab set,
the built pattern contains a separator token, and its value is the
amended resolution (which is `-`). -/
theorem buildFromOptions_separator_value_witness :
    ("-" : String) = specResolvedSeparator "." "+" true false false :=
  buildFromOptions_separator_value ⟨"."⟩ 2 0 0 "lower" "+" true false false
    ⟨[Token.word .lower, Token.separator "-", Token.word .lower]⟩ "-"
    rfl (by simp)

/-- C2 counterexample: on the bytes of `xbc` the detector reports a
sequential match at position 0 of length 3 (penalty 6.0) even though the
span is not ascending-consecutive: the first step `x` to `b` is never
checked. -/
theorem findSequentialPatterns_xbc :
    findSequentialPatterns [120, 98, 99] =
      [{ type' := "sequential",
         description := str2bytes "Sequential pattern: " ++ [120, 98, 99],
         position := 0, length := 3, penalty := 6 }] ∧
    ¬ seqChainFull [120, 98, 99] 0 3 := by
  constructor
  · simp [findSequentialPatterns, findSequentialPatternsFrom, getSequenceLength,
      seqExtend]
    norm_num [str2bytes]
  · decide

/-- Invariant of the `getSequenceLength` while loop: starting from any
in-range length, the result is at least that length, stays in range,
extends the chain step by step, and stops maximally. -/
theorem seqExtend_spec (s : List Nat) (pos len : Nat)
    (hle : pos + len ≤ s.length) (h1 : 1 ≤ len) :
    len ≤ seqExtend s pos len ∧ pos + seqExtend s pos len ≤ s.length ∧
      (∀ k, pos + len ≤ k → k < pos + seqExtend s pos len →
        s.getD k 0 = (s.getD (k - 1) 0 + 1) % 256) ∧
      seqMaximal s pos (seqExtend s pos len) := by
  unfold seqExtend
  split
  · rename_i hlt
    split
    · rename_i heq
      have ih := seqExtend_spec s pos (len + 1) (by omega) (by omega)
      have ih1 := ih.1
      refine ⟨by omega, ih.2.1, ?_, ih.2.2.2⟩
      intro k hk1 hk2
      by_cases hk : pos + len + 1 ≤ k
      · exact ih.2.2.1 k hk hk2
      · have hkeq : k = pos + len := by omega
        subst hkeq
        simpa using heq
    · rename_i hne
      refine ⟨le_refl _, by omega, ?_, Or.inr hne⟩
      intro k hk1 hk2
      omega
  · rename_i hge
    have hlen : pos + len = s.length := by omega
    refine ⟨le_refl _, by omega, ?_, Or.inl hlen⟩
    intro k hk1 hk2
    omega
termination_by s.length - (pos + len)
decreasing_by simp_wf; omega

/-- Specification of `getSequenceLength` when at least three characters
remain: the result is ≥ 2, in range, chains from the third character of
the span onward, and is maximal. -/
theorem getSequenceLength_spec (s : List Nat) (pos : Nat)
    (h : pos + 2 < s.length) :
    2 ≤ getSequenceLength s pos ∧ pos + getSequenceLength s pos ≤ s.length ∧
      seqChainTail s pos (getSequenceLength s pos) ∧
      seqMaximal s pos (getSequenceLength s pos) := by
  unfold getSequenceLength
  rw [if_neg (by omega)]
  have hs := seqExtend_spec s pos 2 (by omega) (by omega)
  exact ⟨hs.1, hs.2.1, fun k hk2 hkge => hs.2.2.1 k hkge hk2, hs.2.2.2⟩

/-- Every match the sequential scan emits from position `i` starts at or
after `i`, has the length `getSequenceLength` reports there (at least 3),
carries penalty `length * 2`, and its start admits three remaining
characters. -/
theorem findSeqFrom_sound (s : List Nat) (i : Nat) :
    ∀ m ∈ findSequentialPatternsFrom s i,
      i ≤ m.position ∧ m.length = getSequenceLength s m.position ∧
      3 ≤ m.length ∧ m.penalty = (m.length : ℚ) * 2 ∧
      m.type' = "sequential" ∧ m.position + 2 < s.length := by
  intro m hm
  unfold findSequentialPatternsFrom at hm
  split at hm
  · rename_i h
    split at hm
    · rename_i h3
      rcases List.mem_cons.mp hm with rfl | hmem
      · exact ⟨le_refl _, rfl, h3, rfl, rfl, h⟩
      · have ih := findSeqFrom_sound s (i + getSequenceLength s i) m hmem
        exact ⟨by omega, ih.2.1, ih.2.2.1, ih.2.2.2.1, ih.2.2.2.2.1, ih.2.2.2.2.2⟩
    · rename_i h3
      have ih := findSeqFrom_sound s (i + 1) m hm
      exact ⟨by omega, ih.2.1, ih.2.2.1, ih.2.2.2.1, ih.2.2.2.2.1, ih.2.2.2.2.2⟩
  · simp at hm
termination_by s.length - i
decreasing_by all_goals simp_wf; omega

/-- Matches are emitted left to right and never overlap: each later match
starts at or after the end of each earlier one (the scan resumes after a
reported run). -/
theorem findSeqFrom_order (s : List Nat) (i : Nat) :
    (findSequentialPatternsFrom s i).Pairwise
      (fun a b => a.position + a.length ≤ b.position) := by
  unfold findSequentialPatternsFrom
  split
  · rename_i h
    split
    · rename_i h3
      refine List.pairwise_cons.mpr ⟨?_, findSeqFrom_order s (i + getSequenceLength s i)⟩
      intro b hb
      have hs := findSeqFrom_sound s (i + getSequenceLength s i) b hb
      simpa using hs.1
    · exact findSeqFrom_order s (i + 1)
  · exact List.Pairwise.nil
termination_by s.length - i
decreasing_by all_goals simp_wf; omega

/-- Completeness of the scan: every position `p ≥ i` at which a run of
length ≥ 3 is detectable is covered by some emitted match. -/
theorem findSeqFrom_complete (s : List Nat) (i p : Nat) (hip : i ≤ p)
    (hp : p + 2 < s.length) (h3 : 3 ≤ getSequenceLength s p) :
    ∃ m ∈ findSequentialPatternsFrom s i,
      m.position ≤ p ∧ p < m.position + m.length := by
  unfold findSequentialPatternsFrom
  split
  · rename_i h
    split
    · rename_i h3i
      by_cases hcase : p < i + getSequenceLength s i
      · refine ⟨_, List.mem_cons_self _ _, ?_, ?_⟩
        · show i ≤ p
          omega
        · show p < i + getSequenceLength s i
          omega
      · obtain ⟨m, hm, h1, h2⟩ :=
          findSeqFrom_complete s (i + getSequenceLength s i) p (by omega) hp h3
        exact ⟨m, List.mem_cons_of_mem _ hm, h1, h2⟩
    · rename_i h3i
      have hne : i ≠ p := by
        rintro rfl
        exact h3i h3
      exact findSeqFrom_complete s (i + 1) p (by omega) hp h3
  · rename_i h
    omega
termination_by s.length - i
decreasing_by all_goals simp_wf; omega

/-- C2 (amended): a sequential PatternMatch at position p with length L is
reported exactly for the maximal runs of length L ≥ 3, with penalty
L × 2.0, in which every character from position p+2 onward equals its
predecessor plus one — the initial pair (p, p+1) is never compared, so
the first step of a reported run need not be consecutive; matches never
overlap (scanning resumes after each run), and every position at which a
run of length ≥ 3 is detectable is covered by a reported match. -/
theorem findSequentialPatterns_spec (s : List Nat) :
    (∀ m ∈ findSequentialPatterns s,
        m.type' = "sequential" ∧ 3 ≤ m.length ∧
        m.penalty = (m.length : ℚ) * 2 ∧ m.position + m.length ≤ s.length ∧
        seqChainTail s m.position m.length ∧ seqMaximal s m.position m.length) ∧
    (findSequentialPatterns s).Pairwise
      (fun a b => a.position + a.length ≤ b.position) ∧
    (∀ p, p + 2 < s.length → 3 ≤ getSequenceLength s p →
        ∃ m ∈ findSequentialPatterns s,
          m.position ≤ p ∧ p < m.position + m.length) := by
  refine ⟨?_, findSeqFrom_order s 0,
    fun p hp h3 => findSeqFrom_complete s 0 p (Nat.zero_le p) hp h3⟩
  intro m hm
  have hs := findSeqFrom_sound s 0 m hm
  have hg := getSequenceLength_spec s m.position hs.2.2.2.2.2
  refine ⟨hs.2.2.2.2.1, hs.2.2.1, hs.2.2.2.1, ?_, ?_, ?_⟩
  · rw [hs.2.1]; exact hg.2.1
  · rw [hs.2.1]; exact hg.2.2.1
  · rw [hs.2.1]; exact hg.2.2.2

/-- C2 witness: on the bytes of `abc`, position 0 starts a detectable run
and is covered by a reported match. -/
theorem findSequentialPatterns_spec_witness :
    ∃ m ∈ findSequentialPatterns [97, 98, 99],
      m.position ≤ 0 ∧ 0 < m.position + m.length :=
  (findSequentialPatterns_spec [97, 98, 99]).2.2 0 (by norm_num)
    (by
      rw [getSequenceLength, if_neg (by norm_num), seqExtend]
      norm_num
      rw [seqExtend]
      norm_num)

/-- C3 counterexample: `testtest` contains the listed word `test` at
positions 0 and 4, but the analyzer emits exactly one dictionary match
(at the first occurrence), not one per occurrence. -/
theorem findDictionaryPatterns_testtest :
    (findDictionaryPatterns (str2bytes "testtest")).length = 1 ∧
    occursAt (goToLower (str2bytes "testtest")) (str2bytes "test") 0 = true ∧
    occursAt (goToLower (str2bytes "testtest")) (str2bytes "test") 4 = true :=
  ⟨rfl, by decide, by decide⟩

/-- `occursAt` steps through a cons. -/
theorem occursAt_cons_succ {a : Nat} {t w : List Nat} {j : Nat} :
    occursAt (a :: t) w (j + 1) = occursAt t w j := by
  simp [occursAt]

/-- `goIndex` returns an index exactly when the word occurs there and
nowhere earlier, and `none` exactly when the word occurs nowhere. -/
theorem goIndex_spec (w : List Nat) (s : List Nat) :
    (∀ i, goIndex s w = some i ↔
      (occursAt s w i = true ∧ ∀ j < i, occursAt s w j = false)) ∧
    (goIndex s w = none ↔ ∀ i, occursAt s w i = false) := by
  induction s with
  | nil =>
    constructor
    · intro i
      unfold goIndex
      split
      · rename_i hpre
        constructor
        · intro h
          simp only [Option.some.injEq] at h
          subst h
          refine ⟨by simpa [occursAt] using hpre, fun j hj => absurd hj (by omega)⟩
        · rintro ⟨hocc, hmin⟩
          rcases Nat.eq_zero_or_pos i with rfl | hpos
          · rfl
          · have h0 := hmin 0 hpos
            simp only [occursAt, List.drop_nil] at h0
            rw [h0] at hpre
            exact absurd hpre (by simp)
      · rename_i hpre
        constructor
        · intro h
          exact absurd h (by simp)
        · rintro ⟨hocc, _⟩
          simp only [occursAt, List.drop_nil] at hocc
          exact absurd hocc hpre
    · unfold goIndex
      split
      · rename_i hpre
        constructor
        · intro h
          exact absurd h (by simp)
        · intro h
          have h0 := h 0
          simp only [occursAt, List.drop_nil] at h0
          rw [h0] at hpre
          exact absurd hpre (by simp)
      · rename_i hpre
        rw [Bool.not_eq_true] at hpre
        constructor
        · intro _ i
          simp only [occursAt, List.drop_nil]
          exact hpre
        · intro _
          rfl
  | cons a t ih =>
    constructor
    · intro i
      unfold goIndex
      split
      · rename_i hpre
        constructor
        · intro h
          simp only [Option.some.injEq] at h
          subst h
          exact ⟨by simpa [occursAt] using hpre, fun j hj => absurd hj (by omega)⟩
        · rintro ⟨hocc, hmin⟩
          rcases Nat.eq_zero_or_pos i with rfl | hpos
          · rfl
          · have h0 := hmin 0 hpos
            simp only [occursAt, List.drop_zero] at h0
            rw [h0] at hpre
            exact absurd hpre (by simp)
      · rename_i hpre
        constructor
        · intro h
          simp only [Option.map_eq_some'] at h
          obtain ⟨j, hj, rfl⟩ := h
          have hspec := (ih.1 j).mp hj
          refine ⟨by rw [occursAt_cons_succ]; exact hspec.1, ?_⟩
          intro k hk
          cases k with
          | zero =>
            rw [Bool.not_eq_true] at hpre
            simpa [occursAt] using hpre
          | succ k =>
            rw [occursAt_cons_succ]
            exact hspec.2 k (by omega)
        · rintro ⟨hocc, hmin⟩
          cases i with
          | zero =>
            simp only [occursAt, List.drop_zero] at hocc
            rw [hocc] at hpre
            exact absurd hpre (by simp)
          | succ i =>
            rw [occursAt_cons_succ] at hocc
            have hidx : goIndex t w = some i := by
              refine (ih.1 i).mpr ⟨hocc, fun j hj => ?_⟩
              rw [← occursAt_cons_succ (a := a)]
              exact hmin (j + 1) (by omega)
            simp [hidx]
    · unfold goIndex
      split
      · rename_i hpre
        constructor
        · intro h
          exact absurd h (by simp)
        · intro h
          have h0 := h 0
          simp only [occursAt, List.drop_zero] at h0
          rw [h0] at hpre
          exact absurd hpre (by simp)
      · rename_i hpre
        rw [Bool.not_eq_true] at hpre
        simp only [Option.map_eq_none']
        rw [ih.2]
        constructor
        · intro h i
          cases i with
          | zero => simpa [occursAt] using hpre
          | succ i => rw [occursAt_cons_succ]; exact h i
        · intro h i
          have := h (i + 1)
          rwa [occursAt_cons_succ] at this

/-- Two words occurring at the same position with the same length are
equal. -/
theorem occursAt_length_unique {l w₁ w₂ : List Nat} {p : Nat}
    (h₁ : occursAt l w₁ p = true) (h₂ : occursAt l w₂ p = true)
    (hlen : w₁.length = w₂.length) : w₁ = w₂ := by
  simp only [occursAt, List.isPrefixOf_iff_prefix] at h₁ h₂
  rw [List.prefix_iff_eq_take] at h₁ h₂
  rw [h₁, h₂, hlen]

/-- C3 (amended): the analyzer penalizes each listed word that occurs
(case-insensitively) in the input with exactly ONE dictionary
PatternMatch, placed at the word's first occurrence in the lowercased
input, with penalty wordLength × 1.5; repeated or overlapping later
occurrences of the same word are not counted again.  (Byte model of
`strings.ToLower` / `strings.Index`, faithful for ASCII inputs.) -/
theorem findDictionaryPatterns_spec (s : List Nat) :
    (∀ m ∈ findDictionaryPatterns s,
      ∃ w ∈ commonWords, m.type' = "dictionary" ∧ m.length = w.length ∧
        m.penalty = (w.length : ℚ) * (3 / 2) ∧
        occursAt (goToLower s) w m.position = true ∧
        ∀ j < m.position, occursAt (goToLower s) w j = false) ∧
    (∀ w ∈ commonWords, (∃ i, occursAt (goToLower s) w i = true) →
      ∃ m ∈ findDictionaryPatterns s, m.length = w.length ∧
        occursAt (goToLower s) w m.position = true ∧
        ∀ j < m.position, occursAt (goToLower s) w j = false) ∧
    (∀ w ∈ commonWords, ∀ m₁ ∈ findDictionaryPatterns s,
      ∀ m₂ ∈ findDictionaryPatterns s,
      occursAt (goToLower s) w m₁.position = true → m₁.length = w.length →
      occursAt (goToLower s) w m₂.position = true → m₂.length = w.length →
      m₁ = m₂) := by
  refine ⟨?_, ?_, ?_⟩
  · intro m hm
    rw [findDictionaryPatterns, List.mem_filterMap] at hm
    obtain ⟨w, hw, hf⟩ := hm
    simp only [Option.map_eq_some'] at hf
    obtain ⟨idx, hidx, rfl⟩ := hf
    have hspec := ((goIndex_spec w (goToLower s)).1 idx).mp hidx
    exact ⟨w, hw, rfl, rfl, rfl, hspec.1, hspec.2⟩
  · intro w hw hex
    rw [findDictionaryPatterns]
    obtain ⟨i, hi⟩ := hex
    have hnone : goIndex (goToLower s) w ≠ none := by
      intro hn
      have := ((goIndex_spec w (goToLower s)).2.mp hn) i
      rw [hi] at this
      exact absurd this (by simp)
    obtain ⟨idx, hidx⟩ := Option.ne_none_iff_exists'.mp hnone
    have hspec := ((goIndex_spec w (goToLower s)).1 idx).mp hidx
    exact ⟨{ type' := "dictionary", description := str2bytes "Common word: " ++ w,
             position := idx, length := w.length,
             penalty := (w.length : ℚ) * (3 / 2) },
           List.mem_filterMap.mpr ⟨w, hw, by rw [hidx]; rfl⟩, rfl, hspec.1, hspec.2⟩
  · intro w hw m₁ hm₁ m₂ hm₂ hocc₁ hlen₁ hocc₂ hlen₂
    rw [findDictionaryPatterns, List.mem_filterMap] at hm₁ hm₂
    obtain ⟨w₁, hw₁, hf₁⟩ := hm₁
    obtain ⟨w₂, hw₂, hf₂⟩ := hm₂
    simp only [Option.map_eq_some'] at hf₁ hf₂
    obtain ⟨idx₁, hidx₁, rfl⟩ := hf₁
    obtain ⟨idx₂, hidx₂, rfl⟩ := hf₂
    have hspec₁ := ((goIndex_spec w₁ (goToLower s)).1 idx₁).mp hidx₁
    have hspec₂ := ((goIndex_spec w₂ (goToLower s)).1 idx₂).mp hidx₂
    have hww₁ : w = w₁ := occursAt_length_unique hocc₁ hspec₁.1 hlen₁.symm
    have hww₂ : w = w₂ := occursAt_length_unique hocc₂ hspec₂.1 hlen₂.symm
    subst hww₁
    subst hww₂
    rw [hidx₁] at hidx₂
    simp only [Option.some.injEq] at hidx₂
    rw [hidx₂]

/-- C3 witness: the listed word `password` occurs in the input `password`
and receives a dictionary match at its first occurrence. -/
theorem findDictionaryPatterns_spec_witness :
    ∃ m ∈ findDictionaryPatterns (str2bytes "password"),
      m.length = (str2bytes "password").length ∧
      occursAt (goToLower (str2bytes "password")) (str2bytes "password")
        m.position = true ∧
      ∀ j < m.position,
        occursAt (goToLower (str2bytes "password")) (str2bytes "password") j
          = false :=
  (findDictionaryPatterns_spec (str2bytes "password")).2.1 (str2bytes "password")
    (by decide) ⟨0, by decide⟩


/-- C4 counterexample: `a2023` contains the 4-digit run `2023` (at
position 1, immediately after a letter) yet the date detector reports no
match at all — the regex word boundaries suppress runs adjacent to word
characters. -/
theorem findDatePatterns_a2023 :
    findDatePatterns (str2bytes "a2023") = [] ∧
    (str2bytes "a2023").drop 1 = str2bytes "2023" := by
  constructor
  · rw [findDatePatterns, findDateFrom, dif_pos (by decide), if_neg (by decide),
      findDateFrom, dif_pos (by decide), if_neg (by decide),
      findDateFrom, dif_neg (by decide)]
  · decide

/-- A digit byte is a word byte. -/
theorem isWordByte_of_digit {c : Nat} (h : isDigitByte c = true) :
    isWordByte c = true := by
  simp only [isDigitByte, decide_eq_true_eq] at h
  simp only [isWordByte, decide_eq_true_eq]
  omega

/-- Two year candidates can never overlap: the digits of an earlier
candidate are word bytes, so they break the leading word boundary of any
candidate starting inside it. -/
theorem yearCandidate_not_overlap (s : List Nat) (i j : Nat)
    (hi : yearCandidateAt s i) (hij : i < j) (hj : j < i + 4) :
    ¬ yearCandidateAt s j := by
  intro hjc
  have hdig : isDigitByte (s.getD (j - 1) 0) = true := by
    have hcases : j - 1 = i ∨ j - 1 = i + 1 ∨ j - 1 = i + 2 := by omega
    rcases hcases with hc | hc | hc <;> rw [hc]
    · rcases hi.2.1 with ⟨h0, _⟩ | ⟨h0, _⟩ <;> rw [h0] <;> decide
    · rcases hi.2.1 with ⟨_, h1⟩ | ⟨_, h1⟩ <;> rw [h1] <;> decide
    · exact hi.2.2.1
  rcases hjc.2.2.2.2.1 with hj0 | hjw
  · omega
  · rw [isWordByte_of_digit hdig] at hjw
    exact absurd hjw (by simp)

/-- Membership in the date scan from `i`: exactly the year candidates at
positions ≥ i, each as a single match with length 4 and penalty 8. -/
theorem findDateFrom_mem (s : List Nat) (i : Nat) (m : PatternMatch) :
    m ∈ findDateFrom s i ↔
      (i ≤ m.position ∧ yearCandidateAt s m.position ∧
        m = { type' := "date"
              description := str2bytes "Year pattern: " ++ (s.drop m.position).take 4
              position := m.position
              length := 4
              penalty := 8 }) := by
  rw [findDateFrom]
  split
  · rename_i hlen
    split
    · rename_i hcand
      rw [List.mem_cons, findDateFrom_mem s (i + 4) m]
      constructor
      · rintro (rfl | ⟨hge, hc, hm⟩)
        · exact ⟨le_refl _, hcand, rfl⟩
        · exact ⟨by omega, hc, hm⟩
      · rintro ⟨hge, hc, hm⟩
        by_cases hpos : m.position = i
        · left
          rw [hm, hpos]
        · right
          refine ⟨?_, hc, hm⟩
          by_contra hlt
          exact yearCandidate_not_overlap s i m.position hcand (by omega) (by omega) hc
    · rename_i hcand
      rw [findDateFrom_mem s (i + 1) m]
      constructor
      · rintro ⟨hge, hc, hm⟩
        exact ⟨by omega, hc, hm⟩
      · rintro ⟨hge, hc, hm⟩
        refine ⟨?_, hc, hm⟩
        rcases Nat.eq_or_lt_of_le hge with rfl | hlt
        · exact absurd hc hcand
        · omega
  · rename_i hlen
    simp only [List.not_mem_nil, false_iff]
    rintro ⟨hge, hc, _⟩
    have := hc.1
    omega
termination_by s.length - i
decreasing_by all_goals simp_wf; omega

/-- Matches of the date scan are emitted at strictly increasing
positions. -/
theorem findDateFrom_order (s : List Nat) (i : Nat) :
    (findDateFrom s i).Pairwise (fun a b => a.position < b.position) := by
  rw [findDateFrom]
  split
  · split
    · refine List.pairwise_cons.mpr ⟨?_, findDateFrom_order s (i + 4)⟩
      intro b hb
      have hs := (findDateFrom_mem s (i + 4) b).mp hb
      show i < b.position
      omega
    · exact findDateFrom_order s (i + 1)
  · exact List.Pairwise.nil
termination_by s.length - i
decreasing_by all_goals simp_wf; omega

/-- C4 (amended): the date detector reports a match exactly at the 4-digit
runs `19xx` / `20xx` that are bounded by ASCII word boundaries on both
sides — a run immediately adjacent to a letter, digit, or underscore is
NOT reported — and each such run yields exactly one match (positions are
strictly increasing) with length 4 and flat penalty 8.0, independent of
other penalties. -/
theorem findDatePatterns_spec (s : List Nat) :
    (∀ m, m ∈ findDatePatterns s ↔
      (yearCandidateAt s m.position ∧
        m = { type' := "date"
              description := str2bytes "Year pattern: " ++ (s.drop m.position).take 4
              position := m.position
              length := 4
              penalty := 8 })) ∧
    (findDatePatterns s).Pairwise (fun a b => a.position < b.position) := by
  refine ⟨fun m => ?_, findDateFrom_order s 0⟩
  rw [findDatePatterns, findDateFrom_mem s 0 m]
  constructor
  · rintro ⟨_, hc, hm⟩
    exact ⟨hc, hm⟩
  · rintro ⟨hc, hm⟩
    exact ⟨Nat.zero_le _, hc, hm⟩

/-- C4 witness: the string `2023` is a bounded year run and yields its
match. -/
theorem findDatePatterns_spec_witness :
    { type' := "date"
      description := str2bytes "Year pattern: " ++ str2bytes "2023"
      position := 0
      length := 4
      penalty := 8 : PatternMatch } ∈ findDatePatterns (str2bytes "2023") :=
  ((findDatePatterns_spec (str2bytes "2023")).1 _).mpr (by exact ⟨by decide, by decide⟩)

/-- `intersperse` of a non-empty list is non-empty. -/
theorem intersperse_ne_nil {s : Token} {l : List Token} (h : l ≠ []) :
    List.intersperse s l ≠ [] := by
  cases l with
  | nil => exact absurd rfl h
  | cons x t =>
    cases t with
    | nil => simp
    | cons y r => simp [List.intersperse_cons_cons]

/-- Appending one element to a non-empty list inserts one separator. -/
theorem intersperse_append_singleton (s : Token) (xs : List Token) (y : Token)
    (hxs : xs ≠ []) :
    List.intersperse s (xs ++ [y]) = List.intersperse s xs ++ [s, y] := by
  induction xs with
  | nil => exact absurd rfl hxs
  | cons x t ih =>
    cases t with
    | nil => simp [List.intersperse_cons_cons, List.intersperse_singleton]
    | cons z r =>
      rw [List.cons_append, List.cons_append, List.intersperse_cons_cons,
        List.intersperse_cons_cons, ← List.cons_append z r [y], ih (by simp)]
      simp

/-- The word loop with an empty separator emits the bare words. -/
theorem buildWordTokens_empty_sep (cs : CaseStyle) (n : Nat) :
    buildWordTokens cs "" n = List.replicate n (Token.word cs) := by
  induction n with
  | zero => rfl
  | succ n ih =>
    rw [buildWordTokens_succ, if_neg (by simp), ih, List.replicate_succ']

/-- The unit loop with an empty separator appends the bare units. -/
theorem appendUnits_empty_sep (u : Token) (n : Nat) (acc : List Token) :
    appendUnits "" u n acc = acc ++ List.replicate n u := by
  induction n with
  | zero => simp [appendUnits]
  | succ n ih =>
    rw [appendUnits_succ, if_neg (by simp), ih, List.replicate_succ',
      ← List.append_assoc]

/-- The word loop with a non-empty separator interleaves one separator
between adjacent words. -/
theorem buildWordTokens_sep (cs : CaseStyle) (r : String) (hr : r ≠ "")
    (n : Nat) :
    buildWordTokens cs r n =
      List.intersperse (Token.separator r) (List.replicate n (Token.word cs)) := by
  induction n with
  | zero => rfl
  | succ n ih =>
    rw [buildWordTokens_succ, ih]
    rcases Nat.eq_zero_or_pos n with rfl | hn
    · simp
    · rw [if_pos ⟨hn, hr⟩, List.replicate_succ',
        intersperse_append_singleton _ _ _ (by simp; omega)]
      simp

/-- The unit loop with a non-empty separator extends an interleaved list
by `n` further separated units. -/
theorem appendUnits_sep (r : String) (hr : r ≠ "") (u : Token) (n : Nat)
    (b : List Token) :
    appendUnits r u n (List.intersperse (Token.separator r) b) =
      List.intersperse (Token.separator r) (b ++ List.replicate n u) := by
  induction n with
  | zero => simp [appendUnits]
  | succ n ih =>
    rw [appendUnits_succ, ih]
    by_cases hb : b ++ List.replicate n u = []
    · obtain ⟨hb1, hb2⟩ := List.append_eq_nil.mp hb
      have hn : n = 0 := by
        have := congrArg List.length hb2
        simpa using this
      subst hn
      subst hb1
      simp
    · rw [if_pos ⟨intersperse_ne_nil hb, hr⟩, List.replicate_succ',
        ← List.append_assoc,
        intersperse_append_singleton _ _ _ hb]
      simp

/-- Non-separator tokens pass through `filter`, separators are counted:
filtering an interleaved list recovers the base and the `length - 1`
separators. -/
theorem filter_intersperse (r : String) (b : List Token)
    (hb : ∀ t ∈ b, t.isSeparator = false) :
    (List.intersperse (Token.separator r) b).filter
        (fun t => !t.isSeparator) = b ∧
    ((List.intersperse (Token.separator r) b).filter Token.isSeparator).length
      = b.length - 1 := by
  induction b with
  | nil => exact ⟨rfl, rfl⟩
  | cons x t ih =>
    cases t with
    | nil =>
      simp only [List.intersperse_singleton]
      have hx := hb x (by simp)
      constructor
      · simp [List.filter, hx]
      · simp [List.filter, hx]
    | cons y s =>
      have hx := hb x (by simp)
      have ihs := ih (fun t ht => hb t (by simp [ht]))
      have hsep : (Token.separator r).isSeparator = true := rfl
      rw [List.intersperse_cons_cons]
      constructor
      · rw [List.filter_cons, List.filter_cons]
        simp only [hx, hsep, Bool.not_false, Bool.not_true, if_true, if_false,
          Bool.false_eq_true, ite_false, ite_true]
        rw [ihs.1]
      · rw [List.filter_cons, List.filter_cons]
        simp only [hx, hsep, Bool.false_eq_true, ite_false, ite_true]
        have h2 := ihs.2
        simp only [List.length_cons] at h2 ⊢
        omega

/-- C6: for all non-negative word / digit / symbol counts with a positive
sum and a recognized casing name, `BuildFromOptions` succeeds; the built
pattern has exactly `words + digits + symbols` non-separator tokens; with
a non-empty resolved separator the token list is exactly the base tokens
with ONE separator between each adjacent pair (`sum - 1` separators), and
with an empty resolved separator it is exactly the base tokens with no
separator at all. -/
theorem buildFromOptions_token_counts (pb : PatternBuilder)
    (words digits symbols : Int) (casing sep : String)
    (kebab snake camel : Bool) (caseStyle : CaseStyle)
    (hw : 0 ≤ words) (hd : 0 ≤ digits) (hs : 0 ≤ symbols)
    (hsum : 1 ≤ words + digits + symbols)
    (hcs : ParseCaseStyle casing = .ok caseStyle) :
    ∃ p, BuildFromOptions pb words digits symbols casing sep kebab snake camel
        = .ok p ∧
      (p.tokens.filter fun t => !t.isSeparator).length
        = (words + digits + symbols).toNat ∧
      (resolveSeparator pb.defaultSep sep kebab snake camel = "" →
        p.tokens =
          List.replicate words.toNat (Token.word caseStyle) ++
          List.replicate digits.toNat (Token.digit 1) ++
          List.replicate symbols.toNat (Token.symbol 1 DefaultSymbolCharset) ∧
        p.tokens.filter Token.isSeparator = []) ∧
      (resolveSeparator pb.defaultSep sep kebab snake camel ≠ "" →
        p.tokens =
          List.intersperse
            (Token.separator (resolveSeparator pb.defaultSep sep kebab snake camel))
            (List.replicate words.toNat (Token.word caseStyle) ++
             List.replicate digits.toNat (Token.digit 1) ++
             List.replicate symbols.toNat (Token.symbol 1 DefaultSymbolCharset)) ∧
        (p.tokens.filter Token.isSeparator).length
          = (words + digits + symbols).toNat - 1) := by
  have hbase : ∀ t ∈
      List.replicate words.toNat (Token.word caseStyle) ++
      List.replicate digits.toNat (Token.digit 1) ++
      List.replicate symbols.toNat (Token.symbol 1 DefaultSymbolCharset),
      t.isSeparator = false := by
    intro t ht
    rcases List.mem_append.mp ht with ht | ht
    · rcases List.mem_append.mp ht with ht | ht <;>
      · rw [List.eq_of_mem_replicate ht]; rfl
    · rw [List.eq_of_mem_replicate ht]; rfl
  have hblen :
      (List.replicate words.toNat (Token.word caseStyle) ++
       List.replicate digits.toNat (Token.digit 1) ++
       List.replicate symbols.toNat (Token.symbol 1 DefaultSymbolCharset)).length
        = (words + digits + symbols).toNat := by
    simp only [List.length_append, List.length_replicate]
    omega
  unfold BuildFromOptions
  rw [if_neg (by omega), hcs]
  set r := resolveSeparator pb.defaultSep sep kebab snake camel with hr
  by_cases hre : r = ""
  · rw [hre]
    refine ⟨_, rfl, ?_, fun _ => ⟨?_, ?_⟩, fun hcon => absurd rfl hcon⟩
    · rw [buildWordTokens_empty_sep, appendUnits_empty_sep, appendUnits_empty_sep,
        List.filter_eq_self.mpr (by
          intro t ht
          simp only [← List.append_assoc] at ht
          rw [hbase t ht]
          rfl)]
      simpa [← List.append_assoc] using hblen
    · rw [buildWordTokens_empty_sep, appendUnits_empty_sep, appendUnits_empty_sep,
        List.append_assoc]
    · rw [buildWordTokens_empty_sep, appendUnits_empty_sep, appendUnits_empty_sep]
      rw [List.filter_eq_nil]
      intro t ht
      simp only [← List.append_assoc] at ht
      rw [hbase t ht]
      simp
  · have hform :
        appendUnits r (Token.symbol 1 DefaultSymbolCharset) symbols.toNat
          (appendUnits r (Token.digit 1) digits.toNat
            (buildWordTokens caseStyle r words.toNat)) =
        List.intersperse (Token.separator r)
          (List.replicate words.toNat (Token.word caseStyle) ++
           List.replicate digits.toNat (Token.digit 1) ++
           List.replicate symbols.toNat (Token.symbol 1 DefaultSymbolCharset)) := by
      rw [buildWordTokens_sep _ _ hre, appendUnits_sep _ hre, appendUnits_sep _ hre]
    have hfilter := filter_intersperse r _ hbase
    refine ⟨_, rfl, ?_, fun hcon => absurd hcon hre, fun _ => ⟨hform, ?_⟩⟩
    · rw [hform, hfilter.1, hblen]
    · rw [hform, hfilter.2, hblen]

/-- C6 witness: one word, one digit, one symbol with default separator
`-` and casing `lower`. -/
theorem buildFromOptions_token_counts_witness :
    ∃ p, BuildFromOptions ⟨"-"⟩ 1 1 1 "lower" "" false false false = .ok p ∧
      (p.tokens.filter fun t => !t.isSeparator).length
        = ((1 : Int) + 1 + 1).toNat ∧
      (resolveSeparator "-" "" false false false = "" →
        p.tokens =
          List.replicate (1 : Int).toNat (Token.word CaseStyle.lower) ++
          List.replicate (1 : Int).toNat (Token.digit 1) ++
          List.replicate (1 : Int).toNat (Token.symbol 1 DefaultSymbolCharset) ∧
        p.tokens.filter Token.isSeparator = []) ∧
      (resolveSeparator "-" "" false false false ≠ "" →
        p.tokens =
          List.intersperse
            (Token.separator (resolveSeparator "-" "" false false false))
            (List.replicate (1 : Int).toNat (Token.word CaseStyle.lower) ++
             List.replicate (1 : Int).toNat (Token.digit 1) ++
             List.replicate (1 : Int).toNat (Token.symbol 1 DefaultSymbolCharset)) ∧
        (p.tokens.filter Token.isSeparator).length
          = ((1 : Int) + 1 + 1).toNat - 1) :=
  buildFromOptions_token_counts ⟨"-"⟩ 1 1 1 "lower" "" false false false
    CaseStyle.lower (by decide) (by decide) (by decide) (by decide) rfl

/-- C7 counterexample: the word consisting of the single letter U+00DF is
alphabetic, yet Mixed casing of it (here with every coin flip choosing
uppercase) equals its all-lowercase form, because uppercasing U+00DF is a
no-op. -/
theorem applyMixedCase_eszett :
    goRuneIsLetter 223 = true ∧
    applyMixedCase [223] (fun _ => true) = goStringToLower [223] :=
  ⟨by decide, rfl⟩

/-- Lowercasing does not change whether a rune is a letter. -/
theorem goRuneIsLetter_toLower (c : Nat) :
    goRuneIsLetter (goRuneToLower c) = goRuneIsLetter c := by
  unfold goRuneIsLetter goRuneToLower
  split
  · rename_i h
    simp only [decide_eq_decide]
    omega
  · rfl

/-- A non-letter is fixed by lowercasing. -/
theorem goRuneToLower_of_not_letter {c : Nat} (h : goRuneIsLetter c = false) :
    goRuneToLower c = c := by
  simp only [goRuneIsLetter, decide_eq_false_iff_not] at h
  unfold goRuneToLower
  rw [if_neg (by omega)]

/-- For a cased letter (simple uppercase and lowercase differ),
re-uppercasing its lowercase form changes it. -/
theorem cased_lower_ne {c : Nat} (hl : goRuneIsLetter c = true)
    (hc : goRuneToUpper c ≠ goRuneToLower c) :
    goRuneToUpper (goRuneToLower c) ≠ goRuneToLower c := by
  simp only [goRuneIsLetter, decide_eq_true_eq] at hl
  unfold goRuneToUpper goRuneToLower at hc ⊢
  split_ifs at hc ⊢ <;> omega

/-- The first pass of mixed casing preserves length. -/
theorem mixedFirstPass_length (word : List Nat) (tape : Nat → Bool) (k : Nat) :
    (mixedFirstPass word tape k).1.length = word.length := by
  induction word generalizing k with
  | nil => rfl
  | cons c rest ih =>
    unfold mixedFirstPass
    split
    · split <;> simp [ih]
    · simp [ih]

/-- When no flip chose uppercase, the first pass lowercases the word. -/
theorem mixedFirstPass_changes_zero (word : List Nat) (tape : Nat → Bool)
    (k : Nat) (h : (mixedFirstPass word tape k).2 = 0) :
    (mixedFirstPass word tape k).1 = goStringToLower word := by
  induction word generalizing k with
  | nil => rfl
  | cons c rest ih =>
    unfold mixedFirstPass at h ⊢
    by_cases hlet : goRuneIsLetter c = true
    · rw [if_pos hlet] at h ⊢
      by_cases htape : tape k = true
      · rw [if_pos htape] at h
        dsimp only at h
        omega
      · rw [if_neg htape] at h ⊢
        dsimp only at h ⊢
        simp only [goStringToLower, List.map_cons, List.cons.injEq, true_and]
        exact ih (k + 1) h
    · rw [if_neg hlet] at h ⊢
      dsimp only at h ⊢
      simp only [goStringToLower, List.map_cons, List.cons.injEq]
      rw [Bool.not_eq_true] at hlet
      exact ⟨(goRuneToLower_of_not_letter hlet).symm, ih k h⟩

/-- When some flip chose uppercase, some letter position of the first-pass
output holds the uppercased rune. -/
theorem mixedFirstPass_changes_pos (word : List Nat) (tape : Nat → Bool)
    (k : Nat) (h : (mixedFirstPass word tape k).2 ≠ 0) :
    ∃ i < word.length, goRuneIsLetter (word.getD i 0) = true ∧
      (mixedFirstPass word tape k).1.getD i 0 = goRuneToUpper (word.getD i 0) := by
  induction word generalizing k with
  | nil => exact absurd rfl h
  | cons c rest ih =>
    unfold mixedFirstPass at h ⊢
    by_cases hlet : goRuneIsLetter c = true
    · rw [if_pos hlet] at h ⊢
      by_cases htape : tape k = true
      · refine ⟨0, by simp, hlet, ?_⟩
        rw [if_pos htape]
        dsimp only
        simp
      · rw [if_neg htape] at h ⊢
        dsimp only at h ⊢
        obtain ⟨i, hi, hl, hu⟩ := ih (k + 1) h
        refine ⟨i + 1, by simpa using hi, by simpa using hl, ?_⟩
        simp only [List.getD_cons_succ]
        exact hu
    · rw [if_neg hlet] at h ⊢
      dsimp only at h ⊢
      obtain ⟨i, hi, hl, hu⟩ := ih k h
      refine ⟨i + 1, by simpa using hi, by simpa using hl, ?_⟩
      simp only [List.getD_cons_succ]
      exact hu

/-- Forcing the first letter uppercase changes the lowercased form of a
word whose letters are all cased. -/
theorem forceFirstLetterUpper_ne (word : List Nat)
    (hletter : ∃ c ∈ word, goRuneIsLetter c = true)
    (hcased : ∀ c ∈ word, goRuneIsLetter c = true →
      goRuneToUpper c ≠ goRuneToLower c) :
    forceFirstLetterUpper (goStringToLower word) ≠ goStringToLower word := by
  induction word with
  | nil => simp at hletter
  | cons c rest ih =>
    simp only [goStringToLower, List.map_cons]
    rw [forceFirstLetterUpper]
    by_cases hc : goRuneIsLetter c = true
    · rw [if_pos (by rwa [goRuneIsLetter_toLower])]
      intro heq
      have hhead := (List.cons.injEq _ _ _ _).mp heq |>.1
      exact cased_lower_ne hc (hcased c (by simp) hc) hhead
    · rw [if_neg (by rw [goRuneIsLetter_toLower]; exact hc)]
      intro heq
      have htail := (List.cons.injEq _ _ _ _).mp heq |>.2
      refine ih ?_ (fun d hd hl => hcased d (by simp [hd]) hl) htail
      obtain ⟨d, hd, hl⟩ := hletter
      rcases List.mem_cons.mp hd with rfl | hd
      · exact absurd hl hc
      · exact ⟨d, hd, hl⟩

/-- C7 (amended): for every word containing at least one letter, all of
whose letters are cased (simple uppercase and lowercase forms differ —
every ASCII letter qualifies), Mixed casing never yields the
all-lowercase form of the word, whatever the coin flips: a flip that
chose uppercase lands on a cased letter, and the degenerate all-lower
outcome is repaired by uppercasing the first letter.  Words whose only
letters are caseless (such as U+00DF) are excluded — for those the claim
fails. -/
theorem applyMixedCase_ne_lower (word : List Nat) (tape : Nat → Bool)
    (hletter : ∃ c ∈ word, goRuneIsLetter c = true)
    (hcased : ∀ c ∈ word, goRuneIsLetter c = true →
      goRuneToUpper c ≠ goRuneToLower c) :
    applyMixedCase word tape ≠ goStringToLower word := by
  unfold applyMixedCase
  simp only []
  split
  · rename_i hz
    rw [mixedFirstPass_changes_zero word tape 0 hz]
    exact forceFirstLetterUpper_ne word hletter hcased
  · rename_i hnz
    obtain ⟨i, hi, hlet, hup⟩ := mixedFirstPass_changes_pos word tape 0 hnz
    intro heq
    have hgd : (mixedFirstPass word tape 0).1.getD i 0 =
        (goStringToLower word).getD i 0 := by rw [heq]
    rw [hup] at hgd
    have hlow : (goStringToLower word).getD i 0 = goRuneToLower (word.getD i 0) := by
      simp only [goStringToLower]
      rw [List.getD_eq_getElem _ _ (by simpa using hi),
        List.getD_eq_getElem _ _ hi]
      simp
    rw [hlow] at hgd
    have hmem : word.getD i 0 ∈ word := by
      rw [List.getD_eq_getElem _ _ hi]
      exact List.getElem_mem _
    exact hcased _ hmem hlet hgd

/-- C7 witness: the ASCII word `a` with an all-lowercase tape is forced
away from its lowercase form. -/
theorem applyMixedCase_ne_lower_witness :
    applyMixedCase [97] (fun _ => false) ≠ goStringToLower [97] :=
  applyMixedCase_ne_lower [97] (fun _ => false) ⟨97, by decide, by decide⟩
    (by decide)

/-- C8: the policy check passes exactly when each dimension is satisfied:
`minLength ≤ 0` or the passphrase length reaches `minLength`, and
`minEntropy ≤ 0` or the entropy reaches `minEntropy`; a bound of zero or
below auto-passes its dimension, and meeting a positive bound exactly
passes. -/
theorem checkPolicy_pass_iff (passphrase : List Nat) (entropy : ℚ)
    (minLength minEntropy : Int) :
    checkPolicy passphrase entropy minLength minEntropy = true ↔
      ((minLength ≤ 0 ∨ minLength ≤ (passphrase.length : Int)) ∧
       (minEntropy ≤ 0 ∨ (minEntropy : ℚ) ≤ entropy)) := by
  unfold checkPolicy
  constructor
  · intro h
    constructor
    · by_contra hc
      push_neg at hc
      rw [if_pos ⟨by omega, by omega⟩] at h
      exact Bool.false_ne_true h
    · by_contra hc
      push_neg at hc
      by_cases hL : minLength > 0 ∧ (passphrase.length : Int) < minLength
      · rw [if_pos hL] at h
        exact Bool.false_ne_true h
      · rw [if_neg hL, if_pos ⟨hc.1, by exact_mod_cast hc.2⟩] at h
        exact Bool.false_ne_true h
  · rintro ⟨h1, h2⟩
    rw [if_neg, if_neg]
    · rintro ⟨hpos, hlt⟩
      rcases h2 with h2 | h2
      · omega
      · exact absurd h2 (not_le.mpr hlt)
    · rintro ⟨hpos, hlt⟩
      rcases h1 with h1 | h1
      · omega
      · omega

/-- C5 counterexample: the default symbol alphabet does not have 32
characters (it has 26), and the analyzer's symbol category size does not
agree with its member characters (size 32, 26 characters). -/
theorem defaultSymbolCharset_not32 :
    ¬ (DefaultSymbolCharset.length = 32 ∧
       SymbolCharset.chars.length = SymbolCharset.size) := by
  decide

/-- C5 (amended): the default symbol alphabet has 26 characters, so a
Symbol token with positive count and the default charset reports
`count * log2 26` entropy bits (not `count * 5`); the analyzer's symbol
category declares size 32 even though its own member string also has 26
characters. -/
theorem defaultSymbolCharset_facts :
    DefaultSymbolCharset.length = 26 ∧ SymbolCharset.size = 32 ∧
      SymbolCharset.chars.length = 26 ∧
      ∀ n : Nat, SymbolTokenEntropyBits ((n : Int) + 1) "" =
        ((n : ℝ) + 1) * Real.logb 2 26 := by
  refine ⟨by decide, by decide, by decide, fun n => ?_⟩
  have hred : SymbolTokenEntropyBits ((n : Int) + 1) "" =
      if (n : Int) + 1 ≤ 0 then 0
      else (((n : Int) + 1 : Int) : ℝ) * Real.logb 2 ((26 : Nat) : ℝ) := rfl
  rw [hred, if_neg (by omega)]
  push_cast
  ring

/-- C9: parsing `W:title SEP W:lower SEP DD\x7b2\x7d SEP S` succeeds and
yields, in order: word/title, separator, word/lower, separator, digits
with count 2 (the brace suffix overriding the two `D` characters),
separator, symbol with count 1. -/
theorem buildFromDSL_example (ds : String) :
    BuildFromDSL ⟨ds⟩ "W:title SEP W:lower SEP DD\x7b2\x7d SEP S" =
      .ok ⟨[Token.word .title, Token.separator ds, Token.word .lower,
            Token.separator ds, Token.digit 2, Token.separator ds,
            Token.symbol 1 DefaultSymbolCharset]⟩ := rfl

/-- `calculateStrength` only ever emits the four-label vocabulary. -/
theorem calculateStrength_mem_vocab (x : ℝ) :
    calculateStrength x ∈ ["Weak", "Okay", "Strong", "Excellent"] := by
  unfold calculateStrength
  split
  · simp
  · split
    · simp
    · split <;> simp

/-- C10: entropy analysis of the empty string returns entropy 0, length 0,
crack time "Instant" and strength "None" — a label outside the
Weak / Okay / Strong / Excellent vocabulary every non-empty input gets —
with no charsets detected, charset size 0 and no pattern matches. -/
theorem calculateEntropy_empty :
    (CalculateEntropy []).entropy = 0 ∧ (CalculateEntropy []).length = 0 ∧
    (CalculateEntropy []).crackTime = "Instant" ∧
    (CalculateEntropy []).strength = "None" ∧
    (CalculateEntropy []).charsets = [] ∧
    (CalculateEntropy []).charsetSize = 0 ∧
    (CalculateEntropy []).patterns = [] ∧
    "None" ∉ ["Weak", "Okay", "Strong", "Excellent"] ∧
    ∀ s : List Nat, s ≠ [] →
      (CalculateEntropy s).strength ∈ ["Weak", "Okay", "Strong", "Excellent"] := by
  refine ⟨?_, ?_, ?_, ?_, ?_, ?_, ?_, by decide, fun s hs => ?_⟩
  all_goals try (unfold CalculateEntropy; rw [if_pos rfl])
  · unfold CalculateEntropy
    rw [if_neg hs]
    exact calculateStrength_mem_vocab _

/-- C10 witness: a concrete non-empty input gets a vocabulary label. -/
theorem calculateEntropy_empty_witness :
    (CalculateEntropy [97]).strength ∈ ["Weak", "Okay", "Strong", "Excellent"] :=
  calculateEntropy_empty.2.2.2.2.2.2.2.2 [97] (by decide)

end Pwgen
